import Mathlib

/-!
Verification of the text-chunking and streaming logic of a Telegram bot
(`main.py` / `config.py`).  Strings are embedded as `List Char`; the
functions below are direct translations of the corresponding Python code.
-/

set_option maxRecDepth 10000

/-- Characters for which Python's `str.isspace()` returns `True`
(Unicode whitespace: bidirectional classes WS, B, S and category Zs). -/
def pyIsSpace (c : Char) : Bool :=
  (0x9 ≤ c.toNat && c.toNat ≤ 0xD) ||
  (0x1C ≤ c.toNat && c.toNat ≤ 0x1F) ||
  c.toNat = 0x20 || c.toNat = 0x85 || c.toNat = 0xA0 || c.toNat = 0x1680 ||
  (0x2000 ≤ c.toNat && c.toNat ≤ 0x200A) ||
  c.toNat = 0x2028 || c.toNat = 0x2029 ||
  c.toNat = 0x202F || c.toNat = 0x205F || c.toNat = 0x3000

/-- Python's `str.strip()`: remove leading and trailing whitespace. -/
def pyStrip (l : List Char) : List Char :=
  ((l.dropWhile pyIsSpace).reverse.dropWhile pyIsSpace).reverse

/-- The boundary test of `split_text_naturally` (main.py line 148):
`char.isspace() or char in "।?!,;:\n"`.  Note: no period. -/
def isBreakChar (c : Char) : Bool :=
  pyIsSpace c || c = '।' || c = '?' || c = '!' || c = ',' ||
  c = ';' || c = ':' || c = '\n'

/-- The `for i, char in enumerate(text)` loop of `split_text_naturally`
(main.py lines 145-162), with the loop state (`chunks`, `current_chunk`,
`last_break`, the enumeration index `i`) passed explicitly.  Python list
slices `s[:k]` / `s[k:]` clamp at the length, exactly as `List.take` /
`List.drop` do.  The trailing `if current_chunk: chunks.append(...)` is
the base case. -/
def splitLoop (maxLength : Nat) :
    List Char → List (List Char) → List Char → Nat → Nat → List (List Char)
  | [], chunks, cur, _, _ =>
    if cur = [] then chunks else chunks ++ [pyStrip cur]
  | c :: rest, chunks, cur, lastBreak, i =>
    let cur' := cur ++ [c]
    let lb := if isBreakChar c then i else lastBreak
    if maxLength < cur'.length then
      if lb = 0 then
        splitLoop maxLength rest (chunks ++ [pyStrip (cur'.take maxLength)])
          (cur'.drop maxLength) 0 (i + 1)
      else
        splitLoop maxLength rest (chunks ++ [pyStrip (cur'.take (lb + 1))])
          (pyStrip (cur'.drop (lb + 1))) 0 (i + 1)
    else
      splitLoop maxLength rest chunks cur' lb (i + 1)

/-- Function `split_text_naturally(text, max_length)` (main.py lines 136-164).
The Python default for `max_length` is 4096; it is passed explicitly here. -/
def split_text_naturally (text : List Char) (maxLength : Nat) : List (List Char) :=
  if text.length ≤ maxLength then [text]
  else splitLoop maxLength text [] [] 0 0

/-- Abbreviation turning a string literal into the `List Char` it denotes. -/
def toL (s : String) : List Char := s.data

/-! ## Configuration constants (config.py) -/

/-- Constant `MAX_HISTORY = 10` (config.py line 9). -/
def MAX_HISTORY : Nat := 10

/-- Constant `TEXT_PROCESSING_MSG` (config.py line 14). -/
def TEXT_PROCESSING_MSG : List Char := toL "Thinking..."

/-- Constant `TEXT_ERROR_MSG` (config.py line 17). -/
def TEXT_ERROR_MSG : List Char := toL "I got stuck thinking about that. Could you ask again?"

/-! ## The streaming loop of `stream_text_response` (main.py lines 194-243)

The loop is embedded as a pure state machine.  Telegram delivery calls are
recorded as an ordered list of operations; the remote generation stream is
an explicit list of events (a text fragment, or the stream raising).
A failing delivery call is injected by giving the index of the delivery
attempt that raises.  Wall-clock effects (`asyncio.sleep`) and logging are
not modelled. -/

/-- A Telegram delivery call made by the loop.  Message handles are
modelled by numbering: the placeholder sent on line 190 is message `0`,
and each `send_message` creates the next handle.  `editLast` records the
handle held in `message_id` at the time of the call. -/
inductive Op
  | editLast (target : Nat) (text : List Char)
  | sendNew (handle : Nat) (text : List Char)
deriving DecidableEq

/-- One event of the generation stream: a fragment delivered by the
iterator (`chunk.text`), or the iterator raising mid-stream. -/
inductive Ev
  | frag (s : List Char)
  | genFail
deriving DecidableEq

/-- The mutable state of the streaming loop: `buffer`, `full_response`,
`last_sent_text`, `message_id`, plus the ordered list of delivery calls
attempted so far. -/
structure St where
  buffer : List Char
  fullResponse : List Char
  lastSent : List Char
  msgId : Nat
  ops : List Op
deriving DecidableEq

/-- Call `await context.bot.edit_message_text(...)` followed by
`last_sent_text = part`.  The attempt is recorded in `ops`; if it is the
delivery attempt selected by `failAt` it raises (`.error`), in which case
the assignment to `last_sent_text` is not reached. -/
def attemptEdit (failAt : Option Nat) (text : List Char) (st : St) : Except St St :=
  let op := Op.editLast st.msgId text
  if failAt = some st.ops.length then
    .error { st with ops := st.ops ++ [op] }
  else
    .ok { st with ops := st.ops ++ [op], lastSent := text }

/-- Call `message = await context.bot.send_message(...)` followed by
`message_id = message.message_id; last_sent_text = part`.  On a raise the
two assignments are not reached. -/
def attemptSend (failAt : Option Nat) (text : List Char) (st : St) : Except St St :=
  let op := Op.sendNew (st.msgId + 1) text
  if failAt = some st.ops.length then
    .error { st with ops := st.ops ++ [op] }
  else
    .ok { st with ops := st.ops ++ [op], lastSent := text, msgId := st.msgId + 1 }

/-- The `for i, part in enumerate(chunks)` delivery loop
(main.py lines 209-217 and 223-231): edit for the first chunk when it
differs from the last displayed text, send a new message for every later
chunk. -/
def flushGo (failAt : Option Nat) : List (List Char) → Nat → St → Except St St
  | [], _, st => .ok st
  | part :: rest, i, st =>
    if i = 0 then
      if part ≠ st.lastSent then do
        let st' ← attemptEdit failAt part st
        flushGo failAt rest (i + 1) st'
      else
        flushGo failAt rest (i + 1) st
    else do
      let st' ← attemptSend failAt part st
      flushGo failAt rest (i + 1) st'

/-- One flush: `full_response += buffer; buffer = ""`, split, deliver.
The intermediate flush (lines 205-218) afterwards keeps only the last
chunk (`full_response = chunks[-1]`); the final flush (lines 220-231)
does not.  `chunks` is never empty there (`full_response` is nonempty),
so the `getLastD` default is unreachable. -/
def flushBuffer (resetToLast : Bool) (failAt : Option Nat) (st : St) : Except St St := do
  let fr := st.fullResponse ++ st.buffer
  let chunks := split_text_naturally fr 4096
  let st' ← flushGo failAt chunks 0 { st with fullResponse := fr, buffer := [] }
  pure (if resetToLast then { st' with fullResponse := chunks.getLastD [] } else st')

/-- The flush trigger of line 204:
`len(buffer) >= 100 or buffer[-1] in " ।?!,;:\n"`.  This character set is
the literal eight-character string of the source (it is not
`str.isspace()`).  `buffer` is nonempty whenever the test runs. -/
def streamBoundary (c : Char) : Bool :=
  c = ' ' || c = '।' || c = '?' || c = '!' || c = ',' || c = ';' || c = ':' || c = '\n'

/-- Test `buffer[-1] in " ।?!,;:\n"` on a (nonempty) buffer. -/
def lastIsStreamBoundary (l : List Char) : Bool :=
  match l.getLast? with
  | some c => streamBoundary c
  | none => false

/-- The `for chunk in response` loop (main.py lines 199-218): skip empty
fragments (`if chunk_text:`), append to the buffer, flush when the buffer
reaches 100 characters or ends in a stream-boundary character.  An
exhausted iterator ends the loop; `genFail` raises out of it. -/
def runEvents (failAt : Option Nat) : List Ev → St → Except St St
  | [], st => .ok st
  | Ev.genFail :: _, st => .error st
  | Ev.frag s :: rest, st =>
    if s = [] then runEvents failAt rest st
    else
      let st' := { st with buffer := st.buffer ++ s }
      if 100 ≤ st'.buffer.length || lastIsStreamBoundary st'.buffer then do
        let st'' ← flushBuffer true failAt st'
        runEvents failAt rest st''
      else
        runEvents failAt rest st'

/-- A turn of the persisted conversation history:
`{"role": ..., "parts": [...]}`. -/
inductive Role
  | user
  | model
deriving DecidableEq

/-- One history entry. -/
structure Turn where
  role : Role
  parts : List (List Char)
deriving DecidableEq

/-- The whole `try` block of `stream_text_response`: the streaming loop,
then the final flush (`if buffer:`), returning the state reached, or the
state at the first raise. -/
def runAll (events : List Ev) (failAt : Option Nat) : Except St St :=
  let st0 : St := { buffer := [], fullResponse := [], lastSent := TEXT_PROCESSING_MSG,
                    msgId := 0, ops := [] }
  match runEvents failAt events st0 with
  | .error st => .error st
  | .ok st1 =>
    if st1.buffer ≠ [] then flushBuffer false failAt st1 else .ok st1

/-- The observable outcome of one call of `stream_text_response`:
the delivery calls of the `try` block, the delivery calls of the
`except` handler, whether an exception was raised, the value of
`last_sent_text` at the raise, and the history handed to `save_history`
(`none` when `save_history` was never invoked). -/
structure RunResult where
  ops : List Op
  handlerOps : List Op
  failed : Bool
  failLastSent : Option (List Char)
  saved : Option (List Turn)
deriving DecidableEq

/-- Function `stream_text_response` (main.py lines 194-243) for a text request
with content `content` and loaded history `history0`.  On success the two
new turns are appended, the history is truncated to the last
`MAX_HISTORY` entries (lines 233-237) and saved.  On an exception the
`except` block performs the single best-effort error edit unless the
error text is already displayed (lines 240-243); its own transport
failure is not modelled (the attempt is still recorded). -/
def stream_text_response (events : List Ev) (failAt : Option Nat)
    (history0 : List Turn) (content : List Char) : RunResult :=
  match runAll events failAt with
  | .ok st2 =>
    let h1 := history0 ++ [⟨Role.user, [content]⟩, ⟨Role.model, [st2.fullResponse]⟩]
    let h2 := if MAX_HISTORY < h1.length then h1.drop (h1.length - MAX_HISTORY) else h1
    { ops := st2.ops, handlerOps := [], failed := false,
      failLastSent := none, saved := some h2 }
  | .error st =>
    { ops := st.ops,
      handlerOps :=
        if st.lastSent ≠ TEXT_ERROR_MSG then [Op.editLast st.msgId TEXT_ERROR_MSG] else [],
      failed := true, failLastSent := some st.lastSent, saved := none }

/-! ## `load_history` (main.py lines 103-115)

File-system access is embedded as an abstract file outcome: the history
file is missing, reading it raises, its content is not JSON, or `json.load`
returns a JSON value.  Every code path of `load_history` returns a value
(the two `except` clauses catch `json.JSONDecodeError` and `Exception`),
so the embedding is a total function. -/

/-- A JSON value, as returned by Python's `json.load`. -/
inductive Json
  | null
  | bool (b : Bool)
  | num (n : Int)
  | str (s : List Char)
  | arr (elems : List Json)
  | obj (fields : List (List Char × Json))

/-- The possible outcomes of locating and reading a user's history file. -/
inductive HistFile
  | absent
  | readFailure
  | invalidJson
  | validJson (v : Json)

/-- Function `load_history(username)`: the parsed JSON value when the file exists
and parses, and the empty list (`[]`, i.e. `Json.arr []`) when the file is
absent (line 109), corrupt (lines 110-112) or unreadable (lines 113-115). -/
def load_history : HistFile → Json
  | HistFile.validJson v => v
  | HistFile.absent => Json.arr []
  | HistFile.invalidJson => Json.arr []
  | HistFile.readFailure => Json.arr []

/-! ## Specification-side definitions

These two definitions follow the words of the specification (not the
source); they exist to be compared against the source-derived functions
above. -/

/-- The natural-boundary set claimed by the specification: any whitespace
character, or comma, semicolon, colon, period, question mark, exclamation
mark, line break, or the danda character. -/
def specClaimedBoundary (c : Char) : Bool :=
  pyIsSpace c || c = ',' || c = ';' || c = ':' || c = '.' ||
  c = '?' || c = '!' || c = '\n' || c = '।'

/-- Concatenating chunks in order, inserting a single space at each cut
point (the reconstruction operation named by the specification). -/
def joinWithSpaces : List (List Char) → List Char
  | [] => []
  | [l] => l
  | l :: l2 :: ls => l ++ ' ' :: joinWithSpaces (l2 :: ls)

/-! ## Helper definitions for the proofs -/

/-- The non-whitespace characters of a string, in order. -/
def nonWS (l : List Char) : List Char := l.filter (fun c => !pyIsSpace c)

/-- Repeated hard cuts: pieces of exactly `maxLength` characters, with the
(nonempty) remainder last. -/
def hardSplit (maxLength : Nat) : List Char → List (List Char)
  | [] => []
  | c :: rest =>
    if rest.length + 1 ≤ maxLength then [c :: rest]
    else (c :: rest).take maxLength :: hardSplit maxLength (rest.drop (maxLength - 1))
termination_by l => l.length
decreasing_by
  simp only [List.length_drop, List.length_cons]
  omega

/-- The value of `last_break` after scanning `l`, starting at enumeration
index `i` with current value `lb` (the update of main.py lines 148-149). -/
def lastBreakFold : List Char → Nat → Nat → Nat
  | [], _, lb => lb
  | c :: rest, i, lb => lastBreakFold rest (i + 1) (if isBreakChar c then i else lb)

/-- The index of the last break character of a string, if any. -/
def lastBrIdx : List Char → Option Nat
  | [] => none
  | c :: rest =>
    match lastBrIdx rest with
    | some k => some (k + 1)
    | none => if isBreakChar c then some 0 else none

/-! ## Lemmas about `nonWS` -/

theorem nonWS_append (a b : List Char) : nonWS (a ++ b) = nonWS a ++ nonWS b := by
  simp [nonWS, List.filter_append]

theorem nonWS_dropWhile (l : List Char) : nonWS (l.dropWhile pyIsSpace) = nonWS l := by
  induction l with
  | nil => rfl
  | cons c t ih =>
    cases h : pyIsSpace c with
    | true => simpa [nonWS, List.dropWhile_cons, List.filter_cons, h] using ih
    | false => simp [List.dropWhile_cons, h]

theorem nonWS_reverse (l : List Char) : nonWS l.reverse = (nonWS l).reverse := by
  simp [nonWS, List.filter_reverse]

theorem nonWS_pyStrip (l : List Char) : nonWS (pyStrip l) = nonWS l := by
  unfold pyStrip
  rw [nonWS_reverse, nonWS_dropWhile, nonWS_reverse, List.reverse_reverse, nonWS_dropWhile]

theorem nonWS_take_drop (n : Nat) (l : List Char) :
    nonWS (l.take n) ++ nonWS (l.drop n) = nonWS l := by
  rw [← nonWS_append, List.take_append_drop]

theorem nonWS_joinWithSpaces (L : List (List Char)) :
    nonWS (joinWithSpaces L) = (L.map nonWS).flatten := by
  induction L with
  | nil => rfl
  | cons l ls ih =>
    cases ls with
    | nil => simp [joinWithSpaces, nonWS]
    | cons l2 ls' =>
      have hsp : pyIsSpace ' ' = true := by decide
      simp only [joinWithSpaces] at ih ⊢
      rw [nonWS_append]
      have hcons : nonWS (' ' :: joinWithSpaces (l2 :: ls')) = nonWS (joinWithSpaces (l2 :: ls')) := by
        simp [nonWS, List.filter_cons, hsp]
      rw [hcons, ih]
      simp

/-- Loop invariant: the loop only moves characters between `current_chunk`
and the chunk list, losing nothing but whitespace (via `.strip()`). -/
theorem splitLoop_nonWS (m : Nat) (rest : List Char) :
    ∀ (chunks : List (List Char)) (cur : List Char) (lb i : Nat),
      ((splitLoop m rest chunks cur lb i).map nonWS).flatten
        = (chunks.map nonWS).flatten ++ nonWS (cur ++ rest) := by
  induction rest with
  | nil =>
    intro chunks cur lb i
    by_cases h : cur = []
    · simp [splitLoop, h, nonWS]
    · simp [splitLoop, h, nonWS_pyStrip]
  | cons c t ih =>
    intro chunks cur lb i
    simp only [splitLoop]
    by_cases h1 : m < (cur ++ [c]).length
    · rw [if_pos h1]
      by_cases h2 : (if isBreakChar c then i else lb) = 0
      · rw [if_pos h2, ih, List.append_cons cur c t,
            nonWS_append (cur ++ [c]) t, ← nonWS_take_drop m (cur ++ [c])]
        simp [nonWS_append, nonWS_pyStrip, List.append_assoc]
      · rw [if_neg h2, ih, List.append_cons cur c t,
            nonWS_append (cur ++ [c]) t,
            ← nonWS_take_drop ((if isBreakChar c then i else lb) + 1) (cur ++ [c])]
        simp [nonWS_append, nonWS_pyStrip, List.append_assoc]
    · rw [if_neg h1, ih]
      simp [List.append_assoc]

/-! ## Lemmas for the no-boundary (hard-cut) case -/

theorem pyIsSpace_eq_false_of_not_break (c : Char) (h : isBreakChar c = false) :
    pyIsSpace c = false := by
  cases hp : pyIsSpace c with
  | false => rfl
  | true => rw [isBreakChar, hp] at h; simp at h

theorem dropWhile_pyIsSpace_of_none (l : List Char)
    (h : ∀ c ∈ l, pyIsSpace c = false) : l.dropWhile pyIsSpace = l := by
  cases l with
  | nil => rfl
  | cons c t =>
    have hc := h c (List.mem_cons_self c t)
    rw [List.dropWhile_cons, if_neg (by simp [hc])]

theorem pyStrip_of_noSpace (l : List Char) (h : ∀ c ∈ l, pyIsSpace c = false) :
    pyStrip l = l := by
  unfold pyStrip
  rw [dropWhile_pyIsSpace_of_none l h,
      dropWhile_pyIsSpace_of_none l.reverse (fun c hc => h c (List.mem_reverse.mp hc)),
      List.reverse_reverse]

theorem hardSplit_step (m : Nat) (hm : 0 < m) (l : List Char) (hl : m < l.length) :
    hardSplit m l = l.take m :: hardSplit m (l.drop m) := by
  cases l with
  | nil => simp at hl
  | cons c rest =>
    have hlen : ¬ rest.length + 1 ≤ m := by
      simp only [List.length_cons] at hl; omega
    have hd : (c :: rest).drop m = rest.drop (m - 1) := by
      cases m with
      | zero => omega
      | succ k => simp [List.drop_succ_cons]
    rw [hardSplit, if_neg hlen, hd]

theorem hardSplit_small (m : Nat) (l : List Char) (h : l.length ≤ m) (hne : l ≠ []) :
    hardSplit m l = [l] := by
  cases l with
  | nil => simp at hne
  | cons c rest =>
    rw [hardSplit, if_pos (by simp only [List.length_cons] at h; omega)]

/-- When no character of the input is a break character, the loop only
performs hard cuts of exactly `m` characters. -/
theorem splitLoop_noBreak (m : Nat) (hm : 0 < m) (rest : List Char) :
    ∀ (chunks : List (List Char)) (cur : List Char) (i : Nat),
      (∀ c ∈ cur, isBreakChar c = false) →
      (∀ c ∈ rest, isBreakChar c = false) →
      cur.length ≤ m →
      splitLoop m rest chunks cur 0 i = chunks ++ hardSplit m (cur ++ rest) := by
  induction rest with
  | nil =>
    intro chunks cur i hcur _ hlen
    by_cases h : cur = []
    · simp [splitLoop, h, hardSplit]
    · rw [List.append_nil]
      simp only [splitLoop]
      rw [if_neg h, hardSplit_small m cur hlen h,
          pyStrip_of_noSpace cur (fun c hc => pyIsSpace_eq_false_of_not_break c (hcur c hc))]
  | cons c t ih =>
    intro chunks cur i hcur hrest hlen
    have hc : isBreakChar c = false := hrest c (List.mem_cons_self c t)
    have ht : ∀ x ∈ t, isBreakChar x = false :=
      fun x hx => hrest x (List.mem_cons_of_mem c hx)
    have hcur' : ∀ x ∈ cur ++ [c], pyIsSpace x = false := by
      intro x hx
      rcases List.mem_append.mp hx with hx1 | hx1
      · exact pyIsSpace_eq_false_of_not_break x (hcur x hx1)
      · rw [List.mem_singleton.mp hx1]; exact pyIsSpace_eq_false_of_not_break c hc
    simp only [splitLoop, hc, if_false, Bool.false_eq_true]
    by_cases hfull : cur.length = m
    · have hov : m < (cur ++ [c]).length := by
        simp only [List.length_append, List.length_cons, List.length_nil]; omega
      rw [if_pos hov]
      rw [if_pos trivial]
      have htake : (cur ++ [c]).take m = cur := by
        rw [← hfull]; exact List.take_left cur [c]
      have hdrop : (cur ++ [c]).drop m = [c] := by
        rw [← hfull]; exact List.drop_left cur [c]
      rw [htake, hdrop,
          pyStrip_of_noSpace cur (fun x hx => pyIsSpace_eq_false_of_not_break x (hcur x hx))]
      rw [ih (chunks ++ [cur]) [c] (i + 1)
            (by intro x hx; rw [List.mem_singleton.mp hx]; exact hc) ht
            (by simp only [List.length_cons, List.length_nil]; omega)]
      rw [hardSplit_step m hm (cur ++ c :: t)
            (by simp only [List.length_append, List.length_cons]; omega)]
      have htake2 : (cur ++ c :: t).take m = cur := by
        rw [← hfull]; exact List.take_left cur (c :: t)
      have hdrop2 : (cur ++ c :: t).drop m = c :: t := by
        rw [← hfull]; exact List.drop_left cur (c :: t)
      rw [htake2, hdrop2]
      simp
    · have hlt : cur.length < m := lt_of_le_of_ne hlen hfull
      have hov : ¬ m < (cur ++ [c]).length := by
        simp only [List.length_append, List.length_cons, List.length_nil]; omega
      rw [if_neg hov]
      rw [ih chunks (cur ++ [c]) (i + 1)
            (by intro x hx
                rcases List.mem_append.mp hx with hx1 | hx1
                · exact hcur x hx1
                · rw [List.mem_singleton.mp hx1]; exact hc)
            ht
            (by simp only [List.length_append, List.length_cons, List.length_nil]; omega)]
      rw [List.append_assoc, List.singleton_append]

/-! ## Lemmas about `last_break` and the first cut -/

theorem lastBreakFold_none (l : List Char) :
    ∀ (i lb : Nat), lastBrIdx l = none → lastBreakFold l i lb = lb := by
  induction l with
  | nil => intro i lb _; rfl
  | cons c rest ih =>
    intro i lb h
    simp only [lastBrIdx] at h
    cases hk : lastBrIdx rest with
    | some k => rw [hk] at h; simp at h
    | none =>
      rw [hk] at h
      cases hc : isBreakChar c with
      | true => rw [hc] at h; simp at h
      | false =>
        simp only [lastBreakFold, hc, Bool.false_eq_true, if_false]
        exact ih (i + 1) lb hk

theorem lastBreakFold_some (l : List Char) :
    ∀ (k i lb : Nat), lastBrIdx l = some k → lastBreakFold l i lb = i + k := by
  induction l with
  | nil => intro k i lb h; simp [lastBrIdx] at h
  | cons c rest ih =>
    intro k i lb h
    simp only [lastBrIdx] at h
    cases hk : lastBrIdx rest with
    | some k' =>
      rw [hk] at h
      simp only [Option.some_inj] at h
      simp only [lastBreakFold]
      rw [ih k' (i + 1) (if isBreakChar c then i else lb) hk]
      omega
    | none =>
      rw [hk] at h
      cases hc : isBreakChar c with
      | true =>
        rw [hc] at h
        simp only [if_true, Option.some_inj] at h
        simp only [lastBreakFold, hc, if_true]
        rw [lastBreakFold_none rest (i + 1) i hk]
        omega
      | false => rw [hc] at h; simp at h

theorem lastBrIdx_lt_length (l : List Char) :
    ∀ (k : Nat), lastBrIdx l = some k → k < l.length := by
  induction l with
  | nil => intro k h; simp [lastBrIdx] at h
  | cons c rest ih =>
    intro k h
    simp only [lastBrIdx] at h
    cases hk : lastBrIdx rest with
    | some k' =>
      rw [hk] at h
      have := ih k' hk
      simp only [Option.some_inj] at h
      simp only [List.length_cons]
      omega
    | none =>
      rw [hk] at h
      cases hc : isBreakChar c with
      | true =>
        rw [hc] at h
        simp only [if_true, Option.some_inj] at h
        simp only [List.length_cons]
        omega
      | false => rw [hc] at h; simp at h

theorem lastBreakFold_snoc (l : List Char) (c : Char) :
    ∀ (i lb : Nat),
      lastBreakFold (l ++ [c]) i lb
        = if isBreakChar c then i + l.length else lastBreakFold l i lb := by
  induction l with
  | nil => intro i lb; simp [lastBreakFold]
  | cons d t ih =>
    intro i lb
    simp only [List.cons_append, lastBreakFold, List.append_eq]
    rw [ih]
    cases hc : isBreakChar c with
    | true => simp only [if_true, List.length_cons]; omega
    | false => simp [hc]

/-- Processing a prefix that cannot overflow just accumulates it into
`current_chunk` and updates `last_break`. -/
theorem splitLoop_skip (m : Nat) (l1 : List Char) :
    ∀ (l2 : List Char) (chunks : List (List Char)) (cur : List Char) (lb i : Nat),
      cur.length + l1.length ≤ m →
      splitLoop m (l1 ++ l2) chunks cur lb i
        = splitLoop m l2 chunks (cur ++ l1) (lastBreakFold l1 i lb) (i + l1.length) := by
  induction l1 with
  | nil => intro l2 chunks cur lb i h; simp [lastBreakFold]
  | cons c t ih =>
    intro l2 chunks cur lb i h
    simp only [List.length_cons] at h
    simp only [List.cons_append, splitLoop, List.append_eq]
    have hov : ¬ m < (cur ++ [c]).length := by
      simp only [List.length_append, List.length_cons, List.length_nil]
      omega
    rw [if_neg hov,
        ih l2 chunks (cur ++ [c]) (if isBreakChar c then i else lb) (i + 1)
          (by simp only [List.length_append, List.length_cons, List.length_nil]; omega)]
    have e1 : (cur ++ [c]) ++ t = cur ++ c :: t := by simp
    have e2 : (i + 1) + t.length = i + (c :: t).length := by
      simp only [List.length_cons]; omega
    rw [e1, e2]
    rfl

/-- The loop output always extends the chunk accumulator. -/
theorem splitLoop_extends (m : Nat) (rest : List Char) :
    ∀ (chunks : List (List Char)) (cur : List Char) (lb i : Nat),
      ∃ tail, splitLoop m rest chunks cur lb i = chunks ++ tail := by
  induction rest with
  | nil =>
    intro chunks cur lb i
    by_cases h : cur = []
    · exact ⟨[], by simp [splitLoop, h]⟩
    · exact ⟨[pyStrip cur], by simp [splitLoop, h]⟩
  | cons c t ih =>
    intro chunks cur lb i
    simp only [splitLoop]
    by_cases h1 : m < (cur ++ [c]).length
    · rw [if_pos h1]
      by_cases h2 : (if isBreakChar c then i else lb) = 0
      · rw [if_pos h2]
        obtain ⟨tail, htail⟩ :=
          ih (chunks ++ [pyStrip ((cur ++ [c]).take m)]) ((cur ++ [c]).drop m) 0 (i + 1)
        exact ⟨pyStrip ((cur ++ [c]).take m) :: tail, by rw [htail]; simp⟩
      · rw [if_neg h2]
        obtain ⟨tail, htail⟩ :=
          ih (chunks ++ [pyStrip ((cur ++ [c]).take ((if isBreakChar c then i else lb) + 1))])
            (pyStrip ((cur ++ [c]).drop ((if isBreakChar c then i else lb) + 1))) 0 (i + 1)
        exact ⟨pyStrip ((cur ++ [c]).take ((if isBreakChar c then i else lb) + 1)) :: tail,
          by rw [htail]; simp⟩
    · rw [if_neg h1]
      exact ih chunks (cur ++ [c]) (if isBreakChar c then i else lb) (i + 1)

/-- Where the first cut of an overlong input lands: immediately after the
last break character among the first `m + 1` characters when one occurs at
a positive index, and a hard cut at exactly `m` characters otherwise
(`last_break = 0` also stands for a boundary seen only at index 0). -/
theorem split_first_cut (text : List Char) (m : Nat) (_hm : 0 < m) (hlen : m < text.length) :
    (∀ j, lastBrIdx (text.take (m + 1)) = some j → 1 ≤ j →
        ∃ tail, split_text_naturally text m = pyStrip (text.take (j + 1)) :: tail) ∧
    ((lastBrIdx (text.take (m + 1))).getD 0 = 0 →
        ∃ tail, split_text_naturally text m = pyStrip (text.take m) :: tail) := by
  have hsplit : split_text_naturally text m = splitLoop m text [] [] 0 0 := by
    unfold split_text_naturally
    rw [if_neg (by omega)]
  obtain ⟨c, l2, hdl⟩ : ∃ c l2, text.drop m = c :: l2 := by
    cases hd : text.drop m with
    | nil =>
      exfalso
      have hld := List.length_drop m text
      rw [hd] at hld
      simp only [List.length_nil] at hld
      omega
    | cons c l2 => exact ⟨c, l2, rfl⟩
  set A := text.take m with hA
  have hlA : A.length = m := by
    rw [hA, List.length_take]; omega
  have hdc : text = A ++ (c :: l2) := by
    conv_lhs => rw [← List.take_append_drop m text]
    rw [hdl]
  have hstep : splitLoop m text [] [] 0 0
      = splitLoop m (c :: l2) [] A (lastBreakFold A 0 0) m := by
    conv_lhs => rw [hdc]
    rw [splitLoop_skip m A (c :: l2) [] [] 0 0
          (by rw [List.length_nil, hlA]; omega)]
    rw [List.nil_append, Nat.zero_add, hlA]
  have hTake1 : text.take (m + 1) = A ++ [c] := by
    conv_lhs => rw [hdc]
    rw [List.take_append_eq_append_take, List.take_take, hlA]
    have h1 : min (m + 1) m = m := by omega
    have h2 : m + 1 - m = 1 := by omega
    rw [h1, h2, ← hA]
    rfl
  have hov : m < (A ++ [c]).length := by
    simp only [List.length_append, List.length_cons, List.length_nil, hlA]
    omega
  have hsnoc : lastBreakFold (text.take (m + 1)) 0 0
      = if isBreakChar c then m else lastBreakFold A 0 0 := by
    rw [hTake1, lastBreakFold_snoc, hlA, Nat.zero_add]
  have hgetd : lastBreakFold (text.take (m + 1)) 0 0
      = (lastBrIdx (text.take (m + 1))).getD 0 := by
    cases hk : lastBrIdx (text.take (m + 1)) with
    | some k => rw [lastBreakFold_some _ k 0 0 hk]; simp
    | none => rw [lastBreakFold_none _ 0 0 hk]; simp
  constructor
  · intro j hj hj1
    have hjlt : j < m + 1 := by
      have hlt := lastBrIdx_lt_length (text.take (m + 1)) j hj
      rw [List.length_take] at hlt
      omega
    have hLval : (if isBreakChar c then m else lastBreakFold A 0 0) = j := by
      rw [← hsnoc, hgetd, hj]
      rfl
    rw [hsplit, hstep]
    simp only [splitLoop]
    rw [if_pos hov, hLval, if_neg (by omega : ¬ j = 0)]
    have hchunk : (A ++ [c]).take (j + 1) = text.take (j + 1) := by
      rw [← hTake1, List.take_take]
      congr 1
      omega
    rw [hchunk]
    obtain ⟨tail, htail⟩ := splitLoop_extends m l2
      ([] ++ [pyStrip (text.take (j + 1))])
      (pyStrip ((A ++ [c]).drop (j + 1))) 0 (m + 1)
    exact ⟨tail, by rw [htail]; simp⟩
  · intro h0
    have hLval : (if isBreakChar c then m else lastBreakFold A 0 0) = 0 := by
      rw [← hsnoc, hgetd, h0]
    rw [hsplit, hstep]
    simp only [splitLoop]
    rw [if_pos hov, hLval, if_pos rfl]
    have hchunk : (A ++ [c]).take m = A := by
      rw [← hlA]
      exact List.take_left A [c]
    rw [hchunk]
    obtain ⟨tail, htail⟩ := splitLoop_extends m l2
      ([] ++ [pyStrip A]) ((A ++ [c]).drop m) 0 (m + 1)
    exact ⟨tail, by rw [htail]; simp⟩

/-! ## Claim theorems -/

/-- C1 (code bug): the claim "every chunk has length at most maxLength" is
violated by the code.  On `"a b cdefgh ijklmnop"` with `maxLength = 5` the
code emits the chunk `"h ijkl"` of length 6: after earlier cuts,
`last_break` still indexes the original text but is used to slice
`current_chunk`, so the slice `current_chunk[:last_break + 1]` can keep the
whole oversized segment.  This contradicts the function's own docstring
("within max_length"). -/
theorem C1_overlong_chunk :
    split_text_naturally (toL "a b cdefgh ijklmnop") 5
      = [toL "a b", toL "cdefg", toL "h ijkl", toL "mnop"] ∧
    toL "h ijkl" ∈ split_text_naturally (toL "a b cdefgh ijklmnop") 5 ∧
    (toL "h ijkl").length = 6 := by
  decide

/-- C2 (confirmed): joining the chunks in order with a single space at
each cut point loses or reorders no non-whitespace character of the input:
the non-whitespace character sequences of the reconstruction and of the
input coincide, so the two differ only in whitespace at the cut points. -/
theorem C2_reconstruction (text : List Char) (maxLength : Nat) :
    nonWS (joinWithSpaces (split_text_naturally text maxLength)) = nonWS text := by
  unfold split_text_naturally
  by_cases h : text.length ≤ maxLength
  · rw [if_pos h]
    rfl
  · rw [if_neg h, nonWS_joinWithSpaces, splitLoop_nonWS]
    simp [nonWS]

/-- C3 counterexample: for a short input with surrounding whitespace the
code returns the input as-is, not trimmed, so
`split(s, maxLength) = [trim(s)]` fails at `s = " a "`. -/
theorem C3_cex :
    split_text_naturally (toL " a ") 5 = [toL " a "] ∧
    pyStrip (toL " a ") = toL "a" ∧
    split_text_naturally (toL " a ") 5 ≠ [pyStrip (toL " a ")] := by
  decide

/-- C3 (corrected): for every input of length at most `maxLength` the
result is the one-element list containing the input unchanged (the
short-circuit of main.py lines 138-139 does not trim). -/
theorem C3_short_input (s : List Char) (maxLength : Nat) (h : s.length ≤ maxLength) :
    split_text_naturally s maxLength = [s] := by
  unfold split_text_naturally
  rw [if_pos h]

/-- C3 witness: the corrected claim at a concrete input. -/
theorem C3_short_input_witness : split_text_naturally (toL "hi there") 100 = [toL "hi there"] :=
  C3_short_input (toL "hi there") 100 (by decide)

/-- C4 counterexample: the period is claimed to be a natural boundary but
is not in the code's break set.  On `"ab.cdefgh"` with `maxLength = 5` the
first oversized segment `"ab.cde"` contains the claimed boundary `'.'`,
yet the code performs a hard cut at 5 (`"ab.cd"`) instead of cutting
immediately after the period (`"ab."`). -/
theorem C4_cex :
    specClaimedBoundary '.' = true ∧
    isBreakChar '.' = false ∧
    split_text_naturally (toL "ab.cdefgh") 5 = [toL "ab.cd", toL "efgh"] ∧
    toL "ab.cd" ≠ pyStrip (toL "ab.") := by
  decide

/-- C4 (corrected): the tracked boundary set is every whitespace character
plus `'।' '?' '!' ',' ';' ':' '\n'` — the period is not a boundary.  For
the first oversized segment (the first `maxLength + 1` characters): when
the last boundary in it sits at a positive index `j`, the cut is placed
immediately after it (the first chunk is `strip(text[:j+1])`); when the
segment has no boundary at a positive index, a hard cut at exactly
`maxLength` occurs (the first chunk is `strip(text[:maxLength])`). -/
theorem C4_boundary_and_first_cut (text : List Char) (maxLength : Nat)
    (hm : 0 < maxLength) (hlen : maxLength < text.length) :
    isBreakChar '.' = false ∧
    (∀ c, isBreakChar c
        = (pyIsSpace c || c = '।' || c = '?' || c = '!' || c = ',' ||
           c = ';' || c = ':' || c = '\n')) ∧
    (∀ j, lastBrIdx (text.take (maxLength + 1)) = some j → 1 ≤ j →
        ∃ tail, split_text_naturally text maxLength
          = pyStrip (text.take (j + 1)) :: tail) ∧
    ((lastBrIdx (text.take (maxLength + 1))).getD 0 = 0 →
        ∃ tail, split_text_naturally text maxLength
          = pyStrip (text.take maxLength) :: tail) :=
  ⟨by decide, fun _ => rfl,
    (split_first_cut text maxLength hm hlen).1,
    (split_first_cut text maxLength hm hlen).2⟩

/-- C4 witness: on `"ab cdef"` with `maxLength = 5` the last boundary of
the first six characters is the space at index 2, and the corrected claim
places the first cut right after it. -/
theorem C4_boundary_and_first_cut_witness :
    ∃ tail, split_text_naturally (toL "ab cdef") 5
      = pyStrip ((toL "ab cdef").take 3) :: tail :=
  (C4_boundary_and_first_cut (toL "ab cdef") 5 (by decide) (by decide)).2.2.1
    2 (by decide) (by decide)

/-- C5 (confirmed): five thousand `'a'`s with `maxLength = 4096` (no
boundary characters anywhere) split into exactly the hard-cut chunk of
length 4096 and the remainder of length 904. -/
theorem C5_no_boundary_5000 :
    split_text_naturally (List.replicate 5000 'a') 4096
      = [List.replicate 4096 'a', List.replicate 904 'a'] ∧
    (List.replicate 4096 'a').length = 4096 ∧
    (List.replicate 904 'a').length = 904 := by
  refine ⟨?_, List.length_replicate 4096 'a', List.length_replicate 904 'a'⟩
  have h1 : min 4096 5000 = 4096 := by omega
  have h2 : 5000 - 4096 = 904 := by omega
  have hne : List.replicate 904 'a' ≠ [] := by
    intro hcontra
    have hlen := congrArg List.length hcontra
    rw [List.length_replicate, List.length_nil] at hlen
    omega
  have hstep := hardSplit_step 4096 (by omega) (List.replicate 5000 'a')
    (by rw [List.length_replicate]; omega)
  have hsmall := hardSplit_small 4096 (List.replicate 904 'a')
    (by rw [List.length_replicate]; omega) hne
  unfold split_text_naturally
  rw [if_neg (by rw [List.length_replicate]; omega),
      splitLoop_noBreak 4096 (by omega) _ [] [] 0
        (by intro c hc; cases hc)
        (fun c hc => by rw [List.eq_of_mem_replicate hc]; decide)
        (by rw [List.length_nil]; omega),
      List.nil_append, List.nil_append,
      hstep, List.take_replicate, List.drop_replicate, h1, h2, hsmall]

/-- The fragment sequence of C6's scenario. -/
def c6Events : List Ev :=
  [Ev.frag (toL "Hi"), Ev.frag (toL " there"), Ev.frag (toL ". "), Ev.frag (toL "Bye")]

/-- C6 counterexample: the fragment `". "` ends in a space, which is in
the flush-boundary set, so the buffer does trigger an intermediate flush
(editing the placeholder to `"Hi there. "`); the streaming run performs
two `editLast` calls, not one. -/
theorem C6_cex :
    (stream_text_response c6Events none [] (toL "q")).ops
      = [Op.editLast 0 (toL "Hi there. "), Op.editLast 0 (toL "Hi there. Bye")] ∧
    ((stream_text_response c6Events none [] (toL "q")).ops).length = 2 ∧
    ((stream_text_response c6Events none [] (toL "q")).ops).length ≠ 1 := by
  decide

/-- C6 (corrected): consuming `["Hi", " there", ". ", "Bye"]` with flush
threshold 100 performs exactly two `editLast` calls on the placeholder
message (handle 0): an intermediate boundary flush to `"Hi there. "`
(triggered by the trailing space of `". "`), then the final flush to
`"Hi there. Bye"`.  No `sendNew` call is made and no error occurs. -/
theorem C6_stream_two_edits :
    (stream_text_response c6Events none [] (toL "q")).ops
      = [Op.editLast 0 (toL "Hi there. "), Op.editLast 0 (toL "Hi there. Bye")] ∧
    (stream_text_response c6Events none [] (toL "q")).handlerOps = [] ∧
    (stream_text_response c6Events none [] (toL "q")).failed = false := by
  decide

/-- C7 counterexample: when the chunk last displayed before the failure is
itself exactly `TEXT_ERROR_MSG`, the guard of main.py line 242 suppresses
the error edit, so the handler performs zero edits, not exactly one. -/
theorem C7_cex :
    (stream_text_response [Ev.frag TEXT_ERROR_MSG, Ev.genFail] none [] (toL "q")).failed
      = true ∧
    (stream_text_response [Ev.frag TEXT_ERROR_MSG, Ev.genFail] none [] (toL "q")).handlerOps
      = [] ∧
    (([] : List Op)).length ≠ 1 := by
  decide

/-- C7 (corrected): whenever the streaming loop raises (fragment source or
delivery call), the handler performs at most one delivery call, and any
call it performs is an edit setting the text to `TEXT_ERROR_MSG`; it
performs none exactly when `TEXT_ERROR_MSG` was already the last displayed
text.  No `sendNew` is issued after the failure point and the generation
call is not retried (the run terminates). -/
theorem C7_error_edit (events : List Ev) (failAt : Option Nat)
    (history0 : List Turn) (content : List Char)
    (h : (stream_text_response events failAt history0 content).failed = true) :
    ((stream_text_response events failAt history0 content).handlerOps = []
      ∨ ∃ k, (stream_text_response events failAt history0 content).handlerOps
          = [Op.editLast k TEXT_ERROR_MSG]) ∧
    (∀ k t, Op.sendNew k t ∉ (stream_text_response events failAt history0 content).handlerOps) ∧
    ((stream_text_response events failAt history0 content).handlerOps = []
      ↔ (stream_text_response events failAt history0 content).failLastSent
          = some TEXT_ERROR_MSG) := by
  cases hE : runAll events failAt with
  | ok st => simp [stream_text_response, hE] at h
  | error st =>
    by_cases hls : st.lastSent = TEXT_ERROR_MSG
    · simp [stream_text_response, hE, hls]
    · simp only [stream_text_response, hE, if_pos hls, ne_eq, hls, not_false_eq_true, if_true]
      refine ⟨Or.inr ⟨st.msgId, rfl⟩, ?_, ?_⟩
      · intro k t hmem
        simp at hmem
      · constructor
        · intro hcontra
          simp at hcontra
        · intro hcontra
          rw [Option.some_inj] at hcontra
          exact absurd hcontra hls

/-- C7 witness: the corrected claim at a concrete failing run. -/
theorem C7_error_edit_witness :
    ((stream_text_response [Ev.genFail] none [] (toL "w")).handlerOps = []
      ∨ ∃ k, (stream_text_response [Ev.genFail] none [] (toL "w")).handlerOps
          = [Op.editLast k TEXT_ERROR_MSG]) ∧
    (∀ k t, Op.sendNew k t ∉ (stream_text_response [Ev.genFail] none [] (toL "w")).handlerOps) ∧
    ((stream_text_response [Ev.genFail] none [] (toL "w")).handlerOps = []
      ↔ (stream_text_response [Ev.genFail] none [] (toL "w")).failLastSent
          = some TEXT_ERROR_MSG) :=
  C7_error_edit [Ev.genFail] none [] (toL "w") (by decide)

/-- C8 (confirmed): whenever `save_history` is reached, the list handed to
it is the suffix of the most recent `MAX_HISTORY = 10` entries of the
in-memory history (the loaded history plus the two new turns), in their
original order, hence has at most 10 entries. -/
theorem C8_history_cap (events : List Ev) (failAt : Option Nat)
    (history0 : List Turn) (content : List Char) (saved : List Turn)
    (h : (stream_text_response events failAt history0 content).saved = some saved) :
    MAX_HISTORY = 10 ∧
    saved.length ≤ MAX_HISTORY ∧
    ∃ t1 t2 : Turn,
      saved = (history0 ++ [t1, t2]).drop ((history0 ++ [t1, t2]).length - MAX_HISTORY) := by
  cases hE : runAll events failAt with
  | error st => simp [stream_text_response, hE] at h
  | ok st2 =>
    simp only [stream_text_response, hE, Option.some_inj] at h
    have key : saved
        = (history0 ++ [(⟨Role.user, [content]⟩ : Turn), ⟨Role.model, [st2.fullResponse]⟩]).drop
            ((history0 ++ [(⟨Role.user, [content]⟩ : Turn),
              ⟨Role.model, [st2.fullResponse]⟩]).length - MAX_HISTORY) := by
      rw [← h]
      by_cases hl : MAX_HISTORY
          < (history0 ++ [(⟨Role.user, [content]⟩ : Turn), ⟨Role.model, [st2.fullResponse]⟩]).length
      · rw [if_pos hl]
      · rw [if_neg hl]
        have hz : (history0 ++ [(⟨Role.user, [content]⟩ : Turn),
            ⟨Role.model, [st2.fullResponse]⟩]).length - MAX_HISTORY = 0 := by omega
        rw [hz, List.drop_zero]
    refine ⟨rfl, ?_, ⟨Role.user, [content]⟩, ⟨Role.model, [st2.fullResponse]⟩, key⟩
    rw [key, List.length_drop]
    omega

/-- C8 witness: the theorem applied to an empty stream over an empty
stored history. -/
theorem C8_history_cap_witness :
    MAX_HISTORY = 10 ∧
    ([(⟨Role.user, [toL "hi"]⟩ : Turn), ⟨Role.model, [[]]⟩] : List Turn).length ≤ MAX_HISTORY ∧
    ∃ t1 t2 : Turn,
      ([(⟨Role.user, [toL "hi"]⟩ : Turn), ⟨Role.model, [[]]⟩] : List Turn)
        = (([] : List Turn) ++ [t1, t2]).drop
            ((([] : List Turn) ++ [t1, t2]).length - MAX_HISTORY) :=
  C8_history_cap [] none [] (toL "hi")
    [⟨Role.user, [toL "hi"]⟩, ⟨Role.model, [[]]⟩] (by decide)

/-- C9 (confirmed): if the streaming loop raises anywhere (during
generation or a delivery call), `save_history` is never invoked for that
request, so the persisted history is untouched. -/
theorem C9_no_save_on_failure (events : List Ev) (failAt : Option Nat)
    (history0 : List Turn) (content : List Char)
    (h : (stream_text_response events failAt history0 content).failed = true) :
    (stream_text_response events failAt history0 content).saved = none := by
  cases hE : runAll events failAt with
  | ok st => simp [stream_text_response, hE] at h
  | error st => simp [stream_text_response, hE]

/-- C9 witness: a run that fails after one delivered fragment saves
nothing. -/
theorem C9_no_save_on_failure_witness :
    (stream_text_response [Ev.frag (toL "Hello, "), Ev.genFail] none [] (toL "x")).saved
      = none :=
  C9_no_save_on_failure [Ev.frag (toL "Hello, "), Ev.genFail] none [] (toL "x") (by decide)

/-- C10 (confirmed): `load_history` is total — every outcome of the file
lookup yields a value, never an exception — returning the parsed JSON
value when the file exists and parses, and the empty list when the file is
missing, unreadable, or corrupt. -/
theorem C10_load_total (f : HistFile) :
    (∀ v, f = HistFile.validJson v → load_history f = v) ∧
    (f = HistFile.absent ∨ f = HistFile.readFailure ∨ f = HistFile.invalidJson →
      load_history f = Json.arr []) := by
  cases f <;> simp [load_history]

/-- C10 witness: both branches of the theorem at concrete file states. -/
theorem C10_load_total_witness :
    load_history (HistFile.validJson (Json.arr [Json.num 3])) = Json.arr [Json.num 3] ∧
    load_history HistFile.absent = Json.arr [] :=
  ⟨(C10_load_total (HistFile.validJson (Json.arr [Json.num 3]))).1 (Json.arr [Json.num 3]) rfl,
   (C10_load_total HistFile.absent).2 (Or.inl rfl)⟩
